import Mathlib

/-!
# Verification of `simple-markov-go` (character-level Markov chain text generator)

Shallow embedding of `src/main.go`. Go strings are modelled as `List Char`
(each `Char` stands for one single-byte code unit; the program slices strings
by byte offset, so one list element corresponds to one Go byte). The Go map
`map[string][]rune` is modelled as an association list: Go map *lookup* is
order-independent (modelled by `lookup`, returning `[]` for absent keys, as a
read of a `nil`-valued entry does in Go), while Go map *iteration*
(`for state := range mc.transitions`) yields keys in an unspecified order;
the association list's order stands for the enumeration order one particular
`range` materialization happens to produce.

The `math/rand` source is modelled abstractly: after `rand.Seed(seed)` the
global source produces a deterministic stream of numbers, modelled as a
`Rand` value holding a stream `Nat → Nat` and a position; `rand.Intn n`
reads the stream at the current position, reduces it modulo `n`, and advances.
-/

namespace SimpleMarkov

/-- A Go string: a sequence of single-byte code units. -/
abbrev GoStr := List Char

/-- The Go map `map[string][]rune`, as an association list whose list order
records the (unspecified) enumeration order of the map's keys. -/
abbrev Table := List (GoStr × List Char)

/-- Go map read `t[s]`: the value stored at key `s`, or `nil` (here `[]`)
when the key is absent. -/
def lookup : Table → GoStr → List Char
  | [], _ => []
  | (k, v) :: rest, s => if k = s then v else lookup rest s

/-- Go `mc.transitions[state] = append(mc.transitions[state], nextChar)`:
append `c` to the entry at key `s`, creating the entry if absent. -/
def insertApp : Table → GoStr → Char → Table
  | [], s, c => [(s, [c])]
  | (k, v) :: rest, s, c =>
      if k = s then (k, v ++ [c]) :: rest else (k, v) :: insertApp rest s c

/-- The keys of the table, in its enumeration order
(`for state := range mc.transitions`). -/
def keys (t : Table) : List GoStr := t.map Prod.fst

/-- Slicing `text[i : i+len]` (Go byte slicing, in-range in every use below). -/
def slice (text : GoStr) (i len : Nat) : GoStr := (text.drop i).take len

/-- Indexing `text[i]` as a character (`rune(text[i])`); in-range in every use below. -/
def nth (text : GoStr) (i : Nat) : Char := text.getD i (Char.ofNat 0)

/-- UTF-8 encoding of a rune, as written by Go's `WriteRune` and by the
conversion `string(r)` (`unicode/utf8.EncodeRune`): one byte below `0x80`,
two bytes below `0x800`, three below `0x10000`, four otherwise. In
particular a corpus byte in `[0x80, 0xFF]` — stored in the table as the rune
of that value by `rune(text[i+order])` — is re-encoded as TWO output bytes. -/
def utf8Encode (c : Char) : GoStr :=
  let v := c.toNat
  if v < 0x80 then [c]
  else if v < 0x800 then
    [Char.ofNat (0xC0 ||| (v >>> 6)), Char.ofNat (0x80 ||| (v &&& 0x3F))]
  else if v < 0x10000 then
    [Char.ofNat (0xE0 ||| (v >>> 12)), Char.ofNat (0x80 ||| ((v >>> 6) &&& 0x3F)),
     Char.ofNat (0x80 ||| (v &&& 0x3F))]
  else
    [Char.ofNat (0xF0 ||| (v >>> 18)), Char.ofNat (0x80 ||| ((v >>> 12) &&& 0x3F)),
     Char.ofNat (0x80 ||| ((v >>> 6) &&& 0x3F)), Char.ofNat (0x80 ||| (v &&& 0x3F))]

/-- The seeded global `math/rand` source: a deterministic stream of raw
outputs together with the position of the next read. -/
structure Rand where
  stream : Nat → Nat
  pos : Nat

/-- Go `rand.Intn n`: the next raw output reduced modulo `n` (in `[0, n)` for
`n > 0`, which holds at every call site), advancing the source. -/
def randIntn (g : Rand) (n : Nat) : Nat × Rand :=
  (g.stream g.pos % n, ⟨g.stream, g.pos + 1⟩)

/-- Structure `MarkovChain` from `main.go`: the transition table and the order. -/
structure MarkovChain where
  transitions : Table
  order : Nat
deriving DecidableEq

/-- Go `NewMarkovChain(order)`: empty table, given order. -/
def NewMarkovChain (order : Nat) : MarkovChain := ⟨[], order⟩

/-- Go `AddText` from `main.go`: if `len(text) <= mc.order` do nothing; else for
every `i` in `[0, len(text)-mc.order)` append `rune(text[i+order])` to the
entry at key `text[i : i+order]`. -/
def AddText (mc : MarkovChain) (text : GoStr) : MarkovChain :=
  if text.length ≤ mc.order then mc
  else
    { mc with
      transitions :=
        (List.range (text.length - mc.order)).foldl
          (fun t i => insertApp t (slice text i mc.order) (nth text (i + mc.order)))
          mc.transitions }

/-- One cursor update (`main.go` lines 127-137): for `order > 1` drop the
cursor's first byte and append `string(nextChar)` — the UTF-8 encoding of
the emitted rune, not necessarily a single byte (or just `string(nextChar)`
if the cursor was empty); for `order <= 1` the cursor becomes
`string(nextChar)`. -/
def stepState (order : Nat) (st : GoStr) (c : Char) : GoStr :=
  if 1 < order then
    if 0 < st.length then st.drop 1 ++ utf8Encode c else utf8Encode c
  else utf8Encode c

/-- The generation loop of `Generate` (`main.go` lines 105-138), run for `n`
remaining iterations from random source `g` and cursor `st`. Returns the
emitted `(cursor, rune)` pairs in order (the output bytes are the
concatenated UTF-8 encodings of the runes), paired with a flag that is
`true` exactly when some iteration found an empty successor list (the
`len(nextRunes) == 0` test), including the early-`break` case. -/
def genSteps (t : Table) (order : Nat) : Rand → GoStr → Nat → List (GoStr × Char) × Bool
  | _, _, 0 => ([], false)
  | g, st, Nat.succ n =>
    let nextRunes := lookup t st
    if nextRunes = [] then
      -- no known transitions: pick a random new state from the table's keys
      let states := keys t
      let st1 := states.getD (randIntn g states.length).1 []
      let g1 := (randIntn g states.length).2
      let nr1 := lookup t st1
      if nr1 = [] then
        -- even the new state has no transitions: break
        ([], true)
      else
        let c := nr1.getD (randIntn g1 nr1.length).1 (Char.ofNat 0)
        let g2 := (randIntn g1 nr1.length).2
        let rest := genSteps t order g2 (stepState order st1 c) n
        ((st1, c) :: rest.1, true)
    else
      let c := nextRunes.getD (randIntn g nextRunes.length).1 (Char.ofNat 0)
      let g2 := (randIntn g nextRunes.length).2
      let rest := genSteps t order g2 (stepState order st c) n
      ((st, c) :: rest.1, rest.2)

/-- Go `Generate` from `main.go`, instrumented: the returned string paired with
the `genSteps` empty-successor flag (`false` on the early-return paths).
Each emitted rune reaches the output through `result.WriteRune(nextChar)`,
i.e. as its UTF-8 encoding `utf8Encode`.
`length` is the Go `int` argument; `g` is the random source that
`rand.Seed` established (the code seeds from `seed` when `seed >= 0`, from
the clock otherwise; either way all subsequent draws come from `g`). -/
def generateCore (mc : MarkovChain) (length : Int) (g : Rand) (starter : GoStr) :
    GoStr × Bool :=
  if length ≤ 0 then ([], false)
  else if mc.transitions = [] then
    -- no transitions: return just the truncated starter
    (if (starter.length : Int) > length then starter.take length.toNat else starter, false)
  else if (starter.length : Int) ≥ length then
    (starter.take length.toNat, false)
  else
    let needed := (length - (starter.length : Int)).toNat
    if mc.order ≤ starter.length then
      -- initial state: the last `order` bytes of the starter
      let p := genSteps mc.transitions mc.order g
        (starter.drop (starter.length - mc.order)) needed
      (starter ++ ((p.1.map fun q => utf8Encode q.2).flatten), p.2)
    else
      -- not enough bytes in the starter: pick a random state
      let states := keys mc.transitions
      let st0 := states.getD (randIntn g states.length).1 []
      let g1 := (randIntn g states.length).2
      let p := genSteps mc.transitions mc.order g1 st0 needed
      (starter ++ ((p.1.map fun q => utf8Encode q.2).flatten), p.2)

/-- Go `Generate(length, seed, starter)` from `main.go`: the output string. -/
def Generate (mc : MarkovChain) (length : Int) (g : Rand) (starter : GoStr) : GoStr :=
  (generateCore mc length g starter).1

/-- Whether the generation walk of this `Generate` call ever found an empty
successor list (`false` on the early-return paths, which run no walk). -/
def generateMetEmpty (mc : MarkovChain) (length : Int) (g : Rand) (starter : GoStr) : Bool :=
  (generateCore mc length g starter).2

end SimpleMarkov

namespace SimpleMarkov

/-! ## Characterization of the table built by `AddText` -/

/-- Modelled from the spec's description of `build` ("for every starting index
`i` from `0` to `len(corpus) - order - 1` inclusive, extract
`state = corpus[i : i+order]` and `next = corpus[i+order]`, and append `next`
to the table's entry for `state`"): the successors the scan of `text`
contributes to state `s`, in scan order. -/
def specSuccessors (text : GoStr) (order : Nat) (s : GoStr) : List Char :=
  (List.range (text.length - order)).filterMap
    (fun i => if slice text i order = s then some (nth text (i + order)) else none)

theorem lookup_insertApp (t : Table) (s : GoStr) (c : Char) (s' : GoStr) :
    lookup (insertApp t s c) s' = lookup t s' ++ (if s = s' then [c] else []) := by
  induction t with
  | nil => by_cases h : s = s' <;> simp [insertApp, lookup, h]
  | cons p rest ih =>
    obtain ⟨k, v⟩ := p
    by_cases hks : k = s
    · subst hks
      by_cases h : k = s' <;> simp [insertApp, lookup, h]
    · by_cases h : k = s'
      · subst h
        have : ¬ s = k := fun hs => hks hs.symm
        simp [insertApp, lookup, hks, this]
      · simp [insertApp, lookup, hks, h, ih]

theorem lookup_foldl_insertApp (text : GoStr) (order : Nat) (is : List Nat) :
    ∀ (t : Table) (s : GoStr),
      lookup (is.foldl
          (fun t i => insertApp t (slice text i order) (nth text (i + order))) t) s
        = lookup t s ++ is.filterMap
            (fun i => if slice text i order = s then some (nth text (i + order)) else none) := by
  induction is with
  | nil => intro t s; simp
  | cons i is ih =>
    intro t s
    rw [List.foldl_cons, ih, lookup_insertApp, List.filterMap_cons]
    by_cases h : slice text i order = s <;> simp [h]

theorem lookup_AddText (mc : MarkovChain) (text : GoStr) (s : GoStr) :
    lookup (AddText mc text).transitions s
      = lookup mc.transitions s ++ specSuccessors text mc.order s := by
  by_cases h : text.length ≤ mc.order
  · have hz : text.length - mc.order = 0 := Nat.sub_eq_zero_of_le h
    simp [AddText, h, specSuccessors, hz]
  · simp [AddText, h, specSuccessors, lookup_foldl_insertApp]

/-- C4 (build algorithm correctness): for every chain and corpus with
`0 < order < len(corpus)`, `AddText` extends each state's successor list by
exactly the characters `corpus[i+order]` taken over all windows
`corpus[i : i+order] = s` for `i` from `0` to `len(corpus) - order - 1`, and
records nothing else; in particular the corpus `"ababab"` at order 1 yields
exactly the table `[("a", "bbb"), ("b", "aa")]`. -/
theorem c4_addText_characterization :
    (∀ (mc : MarkovChain) (text : GoStr), 0 < mc.order → mc.order < text.length →
      ∀ s, lookup (AddText mc text).transitions s
        = lookup mc.transitions s ++ specSuccessors text mc.order s) ∧
    (AddText (NewMarkovChain 1) ['a', 'b', 'a', 'b', 'a', 'b']).transitions
      = [(['a'], ['b', 'b', 'b']), (['b'], ['a', 'a'])] :=
  ⟨fun mc text _ _ s => lookup_AddText mc text s, by decide⟩

/-- Witness for C4 at a concrete chain, corpus and state. -/
theorem c4_addText_characterization_witness :
    lookup (AddText (NewMarkovChain 1) ['a', 'b', 'a']).transitions ['a']
      = lookup (NewMarkovChain 1).transitions ['a'] ++ specSuccessors ['a', 'b', 'a'] 1 ['a'] :=
  c4_addText_characterization.1 (NewMarkovChain 1) ['a', 'b', 'a']
    (by decide) (by decide) ['a']

/-- C3, counterexample: the claim asserts that `order <= 0` leaves the
table empty, but `AddText` at order `0` on the corpus `"ab"` creates the
entry `("", ['a', 'b'])`: the table is not empty. (The guard in `AddText`
only tests `len(text) <= order`, which does not fire here.) -/
theorem c3_counterexample :
    (AddText (NewMarkovChain 0) ['a', 'b']).transitions = [([], ['a', 'b'])] ∧
    (AddText (NewMarkovChain 0) ['a', 'b']).transitions ≠ [] := by
  constructor <;> decide

/-- C3, amended (build totality on degenerate inputs): for every chain
and corpus with `len(corpus) <= order`, `AddText` returns the chain
unchanged — in particular a fresh chain's table stays empty — and it is a
total function for every order `>= 0`. (As stated the claim also covered
`order <= 0`: but at `order = 0` a non-empty corpus populates the
empty-string state, and at negative orders the Go slice `text[i : i+order]`
would panic, so the `order <= 0` part does not hold of the code.) -/
theorem c3_amended :
    (∀ (mc : MarkovChain) (text : GoStr), text.length ≤ mc.order →
      AddText mc text = mc) ∧
    (∀ (order : Nat) (text : GoStr), text.length ≤ order →
      (AddText (NewMarkovChain order) text).transitions = []) := by
  constructor
  · intro mc text h
    simp [AddText, h]
  · intro order text h
    simp [AddText, h, NewMarkovChain]

/-- Witness for the amended C3 at a concrete chain and corpus. -/
theorem c3_amended_witness :
    (AddText (NewMarkovChain 3) ['a', 'b']).transitions = [] :=
  c3_amended.2 3 ['a', 'b'] (by decide)

end SimpleMarkov

namespace SimpleMarkov

/-! ## Random index selection stays inside the list -/

theorem getD_mem {α : Type} {l : List α} {i : Nat} (h : i < l.length) (d : α) :
    l.getD i d ∈ l := by
  rw [List.getD_eq_getElem?_getD, List.getElem?_eq_getElem h]
  exact List.getElem_mem h

theorem randIntn_lt (g : Rand) {n : Nat} (h : 0 < n) : (randIntn g n).1 < n :=
  Nat.mod_lt _ h

theorem getD_randIntn_mem {α : Type} (g : Rand) {l : List α} (h : l ≠ []) (d : α) :
    l.getD (randIntn g l.length).1 d ∈ l :=
  getD_mem (randIntn_lt g (List.length_pos.mpr h)) d

/-! ## Tables whose successor lists are all non-empty -/

theorem lookup_ne_nil_of_mem_keys {t : Table} (hv : ∀ p ∈ t, p.2 ≠ [])
    {k : GoStr} (hk : k ∈ keys t) : lookup t k ≠ [] := by
  induction t with
  | nil => simp [keys] at hk
  | cons q rest ih =>
    obtain ⟨k0, v⟩ := q
    by_cases h : k0 = k
    · simpa [lookup, h] using hv (k0, v) (by simp)
    · have hk' : k ∈ keys rest := by
        rcases (by simpa [keys] using hk : k = k0 ∨ k ∈ keys rest) with h' | h'
        · exact absurd h'.symm h
        · exact h'
      simpa [lookup, h] using ih (fun p hp => hv p (List.mem_cons_of_mem _ hp)) hk'

theorem values_insertApp {t : Table} (s : GoStr) (c : Char)
    (hv : ∀ p ∈ t, p.2 ≠ []) : ∀ p ∈ insertApp t s c, p.2 ≠ [] := by
  induction t with
  | nil =>
    intro p hp
    simp [insertApp] at hp
    simp [hp]
  | cons q rest ih =>
    obtain ⟨k, v⟩ := q
    intro p hp
    by_cases h : k = s
    · simp [insertApp, h] at hp
      rcases hp with h1 | h1
      · simp [h1]
      · exact hv p (List.mem_cons_of_mem _ h1)
    · simp [insertApp, h] at hp
      rcases hp with h1 | h1
      · exact hv p (by simp [h1])
      · exact ih (fun p hp => hv p (List.mem_cons_of_mem _ hp)) p h1

theorem values_foldl_insertApp (text : GoStr) (order : Nat) (is : List Nat) :
    ∀ (t : Table), (∀ p ∈ t, p.2 ≠ []) →
      ∀ p ∈ is.foldl
        (fun t i => insertApp t (slice text i order) (nth text (i + order))) t,
        p.2 ≠ [] := by
  induction is with
  | nil => intro t ht; simpa using ht
  | cons i is ih =>
    intro t ht
    rw [List.foldl_cons]
    exact ih _ (values_insertApp _ _ ht)

theorem values_AddText {mc : MarkovChain} (text : GoStr)
    (hv : ∀ p ∈ mc.transitions, p.2 ≠ []) :
    ∀ p ∈ (AddText mc text).transitions, p.2 ≠ [] := by
  by_cases h : text.length ≤ mc.order
  · simpa [AddText, h] using hv
  · simpa [AddText, h] using
      values_foldl_insertApp text mc.order _ mc.transitions hv

/-- Go `main`'s construction: a fresh chain of the given order, fed each corpus
in turn by `AddText` (the program calls `AddText` once, on the whole input). -/
def buildMany (order : Nat) (texts : List GoStr) : MarkovChain :=
  texts.foldl AddText (NewMarkovChain order)

theorem values_foldl_AddText (texts : List GoStr) :
    ∀ (mc : MarkovChain), (∀ p ∈ mc.transitions, p.2 ≠ []) →
      ∀ p ∈ (texts.foldl AddText mc).transitions, p.2 ≠ [] := by
  induction texts with
  | nil => intro mc h; simpa using h
  | cons text texts ih =>
    intro mc h
    rw [List.foldl_cons]
    exact ih _ (values_AddText text h)

theorem values_buildMany (order : Nat) (texts : List GoStr) :
    ∀ p ∈ (buildMany order texts).transitions, p.2 ≠ [] :=
  values_foldl_AddText texts (NewMarkovChain order) (by simp [NewMarkovChain])

/-- If every successor list of the (non-empty) table is non-empty, the
generation loop never takes the early `break`: it emits one character at
every iteration. -/
theorem genSteps_length_of_values {t : Table} (order : Nat)
    (hv : ∀ p ∈ t, p.2 ≠ []) (ht : t ≠ []) :
    ∀ (n : Nat) (g : Rand) (st : GoStr),
      (genSteps t order g st n).1.length = n := by
  intro n
  induction n with
  | zero => intro g st; simp [genSteps]
  | succ n ih =>
    intro g st
    by_cases h : lookup t st = []
    · have hkeys : keys t ≠ [] := by simpa [keys] using ht
      have hst1 : (keys t).getD (randIntn g (keys t).length).1 [] ∈ keys t :=
        getD_randIntn_mem g hkeys []
      have hnr1 : lookup t ((keys t)[(randIntn g (keys t).length).1]?.getD []) ≠ [] := by
        rw [← List.getD_eq_getElem?_getD]
        exact lookup_ne_nil_of_mem_keys hv hst1
      simp [genSteps, h, hnr1, ih]
    · simp [genSteps, h, ih]

/-- C10 (non-empty successor lists): every entry of a table built by any
sequence of `AddText` calls on a fresh chain has a non-empty successor list;
consequently, on such a (non-empty) table the early-stop branch of the
generation loop — a re-seeded state whose successor list is also empty — is
unreachable: the loop emits exactly one rune per iteration. -/
theorem c10_nonempty_successor_lists :
    ∀ (order : Nat) (texts : List GoStr),
      (∀ p ∈ (buildMany order texts).transitions, p.2 ≠ []) ∧
      ((buildMany order texts).transitions ≠ [] →
        ∀ (g : Rand) (st : GoStr) (n : Nat),
          (genSteps (buildMany order texts).transitions order g st n).1.length = n) :=
  fun order texts =>
    ⟨values_buildMany order texts,
     fun ht g st n =>
       genSteps_length_of_values order (values_buildMany order texts) ht n g st⟩

/-- The all-zeros random stream, at position 0 (one concrete realization of
the seeded `math/rand` source). -/
def randZero : Rand := ⟨fun _ => 0, 0⟩

/-- Witness for C10 at a concrete build and walk. -/
theorem c10_nonempty_successor_lists_witness :
    (genSteps (buildMany 1 [['a', 'b', 'a']]).transitions 1 randZero ['z'] 3).1.length = 3 :=
  (c10_nonempty_successor_lists 1 [['a', 'b', 'a']]).2 (by decide) randZero ['z'] 3

theorem utf8Encode_length_of_ascii {c : Char} (h : c.toNat < 0x80) :
    (utf8Encode c).length = 1 := by
  simp [utf8Encode, h]

/-- C9, counterexample: the claim asserts that each cursor update leaves the
cursor exactly `order` bytes long, but the update appends `string(nextChar)`
— the UTF-8 encoding of the emitted rune. For the rune `U+00E9` (recorded in
the table whenever the corpus byte `0xE9` followed a state) that encoding is
the two bytes `0xC3 0xA9`, so at order 2 the two-byte cursor `"ab"` becomes
three bytes long after the update. -/
theorem c9_counterexample :
    1 ≤ 2 ∧ (['a', 'b'] : GoStr).length = 2 ∧
    (stepState 2 ['a', 'b'] (Char.ofNat 0xE9)).length ≠ 2 :=
  ⟨by decide, by decide, by decide⟩

/-- C9, amended (cursor byte-length law): for every order `>= 1` and cursor
of exactly `order` bytes, the cursor update leaves the cursor
`order - 1 + k` bytes long, where `k` is the byte length of the emitted
rune's UTF-8 encoding; in particular the cursor stays exactly `order` bytes
long whenever the emitted rune is below `0x80` (a single UTF-8 byte). A rune
in `[0x80, 0xFF]` — any non-ASCII corpus byte — re-encodes as two bytes and
grows the cursor instead. -/
theorem c9_amended_cursor_length :
    ∀ (order : Nat) (st : GoStr) (c : Char), 1 ≤ order → st.length = order →
      (stepState order st c).length = order - 1 + (utf8Encode c).length ∧
      (c.toNat < 0x80 → (stepState order st c).length = order) := by
  intro order st c h1 h2
  have key : (stepState order st c).length = order - 1 + (utf8Encode c).length := by
    unfold stepState
    by_cases ho : 1 < order
    · have hpos : 0 < st.length := by omega
      simp only [ho, if_true, hpos, List.length_append, List.length_drop]
      omega
    · have h1' : order = 1 := by omega
      simp [ho, h1']
  refine ⟨key, fun hc => ?_⟩
  rw [key, utf8Encode_length_of_ascii hc]
  omega

/-- Witness for the amended C9 at order 2 with an ASCII rune. -/
theorem c9_amended_cursor_length_witness :
    (stepState 2 ['a', 'b'] 'c').length = 2 :=
  (c9_amended_cursor_length 2 ['a', 'b'] 'c' (by decide) (by decide)).2 (by decide)

end SimpleMarkov

namespace SimpleMarkov

/-! ## Every emitted character comes from the current cursor's successor list -/

theorem getElem?getD_mem {α : Type} {l : List α} {i : Nat} (h : i < l.length) (d : α) :
    l[i]?.getD d ∈ l := by
  rw [← List.getD_eq_getElem?_getD]
  exact getD_mem h d

theorem genSteps_mem_lookup {t : Table} (order : Nat) :
    ∀ (n : Nat) (g : Rand) (st : GoStr) (s : GoStr) (c : Char),
      (s, c) ∈ (genSteps t order g st n).1 → c ∈ lookup t s := by
  intro n
  induction n with
  | zero => intro g st s c hmem; simp [genSteps] at hmem
  | succ n ih =>
    intro g st s c hmem
    by_cases h : lookup t st = []
    · by_cases hnr : lookup t ((keys t)[(randIntn g (keys t).length).1]?.getD []) = []
      · simp [genSteps, h, hnr] at hmem
      · simp [genSteps, h, hnr] at hmem
        rcases hmem with ⟨hs, hc⟩ | hmem
        · subst hs
          subst hc
          exact getElem?getD_mem
            (randIntn_lt _ (List.length_pos.mpr hnr)) (Char.ofNat 0)
        · exact ih _ _ _ _ hmem
    · simp [genSteps, h] at hmem
      rcases hmem with ⟨hs, hc⟩ | hmem
      · subst hs
        subst hc
        exact getElem?getD_mem (randIntn_lt _ (List.length_pos.mpr h)) (Char.ofNat 0)
      · exact ih _ _ _ _ hmem

/-- C5 (transition fidelity): in a table built from a corpus, every
character in a state's successor list occurs in the corpus immediately after
an occurrence of that state (exact, case-sensitive match); and every
character the generation loop emits while the (possibly re-seeded) cursor
equals `s` belongs to `s`'s successor list — hence to the characters that
followed `s` in the corpus. -/
theorem c5_transition_fidelity :
    ∀ (corpus : GoStr) (order : Nat),
      (∀ (s : GoStr) (c : Char),
        c ∈ lookup (AddText (NewMarkovChain order) corpus).transitions s →
        ∃ i, i + order < corpus.length ∧ slice corpus i order = s ∧
          nth corpus (i + order) = c) ∧
      (∀ (g : Rand) (st : GoStr) (n : Nat) (s : GoStr) (c : Char),
        (s, c) ∈ (genSteps (AddText (NewMarkovChain order) corpus).transitions
            order g st n).1 →
        c ∈ lookup (AddText (NewMarkovChain order) corpus).transitions s) := by
  intro corpus order
  constructor
  · intro s c hc
    rw [lookup_AddText] at hc
    simp only [NewMarkovChain, lookup, List.nil_append] at hc
    rw [specSuccessors, List.mem_filterMap] at hc
    obtain ⟨i, hi, heq⟩ := hc
    rw [List.mem_range] at hi
    by_cases hs : slice corpus i order = s
    · rw [if_pos hs, Option.some.injEq] at heq
      exact ⟨i, by omega, hs, heq⟩
    · rw [if_neg hs] at heq
      exact absurd heq (Option.noConfusion)
  · intro g st n s c hmem
    exact genSteps_mem_lookup order n g st s c hmem

/-- Witness for C5: in the table built from `"aba"` at order 1, the
character `'b'` recorded after state `"a"` indeed follows `"a"` in the
corpus. -/
theorem c5_transition_fidelity_witness :
    ∃ i, i + 1 < 3 ∧ slice ['a', 'b', 'a'] i 1 = ['a'] ∧
      nth ['a', 'b', 'a'] (i + 1) = 'b' :=
  (c5_transition_fidelity ['a', 'b', 'a'] 1).1 ['a'] 'b' (by decide)

end SimpleMarkov

namespace SimpleMarkov

/-! ## Length contract and starter laws of `Generate` -/

theorem genSteps_length_of_flag {t : Table} (order : Nat) :
    ∀ (n : Nat) (g : Rand) (st : GoStr),
      (genSteps t order g st n).2 = false → (genSteps t order g st n).1.length = n := by
  intro n
  induction n with
  | zero => intro g st _; simp [genSteps]
  | succ n ih =>
    intro g st hflag
    by_cases h : lookup t st = []
    · by_cases hnr : lookup t ((keys t)[(randIntn g (keys t).length).1]?.getD []) = []
      · simp [genSteps, h, hnr] at hflag
      · simp [genSteps, h, hnr] at hflag
    · simp [genSteps, h] at hflag ⊢
      exact ih _ _ hflag

theorem mem_values_of_mem_lookup {t : Table} {s : GoStr} {c : Char}
    (h : c ∈ lookup t s) : ∃ p ∈ t, c ∈ p.2 := by
  induction t with
  | nil => simp [lookup] at h
  | cons q rest ih =>
    obtain ⟨k, v⟩ := q
    by_cases hk : k = s
    · refine ⟨(k, v), by simp, ?_⟩
      simpa [lookup, hk] using h
    · obtain ⟨p, hp, hc⟩ := ih (by simpa [lookup, hk] using h)
      exact ⟨p, List.mem_cons_of_mem _ hp, hc⟩

theorem flatten_map_length_eq {α : Type} (f : α → GoStr) :
    ∀ (l : List α), (∀ x ∈ l, (f x).length = 1) →
      ((l.map f).flatten).length = l.length := by
  intro l
  induction l with
  | nil => intro _; simp
  | cons x xs ih =>
    intro h
    simp only [List.map_cons, List.flatten_cons, List.length_append, List.length_cons]
    rw [h x (by simp), ih (fun y hy => h y (List.mem_cons_of_mem _ hy))]
    omega

/-- When every successor rune in the table is ASCII (below `0x80`, a one-byte
UTF-8 encoding) and the walk never meets an empty successor list, the loop's
output contributes exactly one byte per iteration. -/
theorem genSteps_output_length {t : Table} (order : Nat)
    (hvals : ∀ p ∈ t, ∀ c ∈ p.2, c.toNat < 0x80) :
    ∀ (n : Nat) (g : Rand) (st : GoStr), (genSteps t order g st n).2 = false →
      (((genSteps t order g st n).1.map fun q => utf8Encode q.2).flatten).length = n := by
  intro n g st hf
  have hl := genSteps_length_of_flag order n g st hf
  have hascii : ∀ q ∈ (genSteps t order g st n).1, (utf8Encode q.2).length = 1 := by
    intro q hq
    obtain ⟨p, hp, hc⟩ := mem_values_of_mem_lookup
      (genSteps_mem_lookup order n g st q.1 q.2 hq)
    exact utf8Encode_length_of_ascii (hvals p hp q.2 hc)
  rw [flatten_map_length_eq _ _ hascii, hl]

/-- Shape of `Generate` on its main path (positive length, non-empty table,
starter shorter than the requested length): the starter followed by the
concatenated UTF-8 encodings of the runes of one `needed`-step walk, whose
empty-successor flag is what `generateMetEmpty` reports. -/
theorem generate_main (mc : MarkovChain) (len : Int) (g : Rand) (starter : GoStr)
    (h0 : ¬ len ≤ 0) (ht : ¬ mc.transitions = [])
    (hge : ¬ ((starter.length : Int) ≥ len)) :
    ∃ g1 st0,
      Generate mc len g starter
        = starter ++ (((genSteps mc.transitions mc.order g1 st0
            ((len - (starter.length : Int)).toNat)).1.map fun q => utf8Encode q.2).flatten) ∧
      generateMetEmpty mc len g starter
        = (genSteps mc.transitions mc.order g1 st0
            ((len - (starter.length : Int)).toNat)).2 := by
  by_cases hord : mc.order ≤ starter.length
  · refine ⟨g, starter.drop (starter.length - mc.order), ?_, ?_⟩ <;>
      simp [Generate, generateMetEmpty, generateCore, h0, ht, hge, hord]
  · refine ⟨(randIntn g (keys mc.transitions).length).2,
      (keys mc.transitions).getD (randIntn g (keys mc.transitions).length).1 [], ?_, ?_⟩ <;>
      simp [Generate, generateMetEmpty, generateCore, h0, ht, hge, hord]

/-- Chain built from the three corpus bytes `a b 0xE9` at order 1: the table
is `{"a": ['b'], "b": [U+00E9]}`. -/
def chainABE : MarkovChain := AddText (NewMarkovChain 1) ['a', 'b', Char.ofNat 0xE9]

/-- C2, counterexample: on the chain built from the corpus bytes `a b 0xE9`
at order 1, with starter `"a"`, requested length 3 and a seeded source, the
table is non-empty and the walk never meets an empty successor list, yet the
output is the four bytes `a b 0xC3 0xA9`, not three: `WriteRune` writes the
two-byte UTF-8 encoding of the rune `U+00E9`, so the byte length exceeds
`length`. -/
theorem c2_counterexample :
    chainABE.transitions ≠ [] ∧
    generateMetEmpty chainABE 3 randZero ['a'] = false ∧
    (Generate chainABE 3 randZero ['a']).length ≠ (3 : Int).toNat :=
  ⟨by decide, by decide, by decide⟩

/-- C2, amended (length contract): the function `Generate` returns the empty
string for every `length <= 0`; and when the table is non-empty, the walk
never meets an empty successor list, and every successor rune stored in the
table is below `0x80` (one UTF-8 byte each — e.g. the corpus is ASCII), the
output has exactly `length` bytes, for every `length >= 0`. Without the
ASCII restriction the walk still runs exactly `length - len(starter)`
iterations, but each emitted rune in `[0x80, 0xFF]` contributes two bytes,
so the output exceeds `length` bytes (see the counterexample). -/
theorem c2_amended_length_contract :
    ∀ (mc : MarkovChain) (len : Int) (g : Rand) (starter : GoStr),
      (len ≤ 0 → Generate mc len g starter = []) ∧
      (mc.transitions ≠ [] → generateMetEmpty mc len g starter = false →
        (∀ p ∈ mc.transitions, ∀ c ∈ p.2, c.toNat < 0x80) →
        (Generate mc len g starter).length = len.toNat) := by
  intro mc len g starter
  constructor
  · intro h
    simp [Generate, generateCore, h]
  · intro ht hflag hvals
    by_cases h0 : len ≤ 0
    · have hnil : Generate mc len g starter = [] := by
        simp [Generate, generateCore, h0]
      rw [hnil]
      simp
      omega
    · by_cases hge : (starter.length : Int) ≥ len
      · simp [Generate, generateCore, h0, ht, hge]
      · obtain ⟨g1, st0, hG, hM⟩ := generate_main mc len g starter h0 ht hge
        have hf : (genSteps mc.transitions mc.order g1 st0
            ((len - (starter.length : Int)).toNat)).2 = false := by
          rw [← hM]
          exact hflag
        rw [hG, List.length_append,
          genSteps_output_length mc.order hvals _ g1 st0 hf]
        omega

/-- Witness for the amended C2 on the chain built from `"ababab"` at
order 1. -/
theorem c2_amended_length_contract_witness :
    (Generate (AddText (NewMarkovChain 1) ['a', 'b', 'a', 'b', 'a', 'b'])
      7 randZero []).length = (7 : Int).toNat :=
  (c2_amended_length_contract (AddText (NewMarkovChain 1) ['a', 'b', 'a', 'b', 'a', 'b'])
    7 randZero []).2 (by decide) (by decide) (by decide)

/-- C6 (empty-table fallback): with an empty transition table and a
positive requested length, `Generate` returns the starter truncated to at
most `length` characters — the whole starter when it is no longer than
`length` — and performs no generation steps. -/
theorem c6_empty_table_fallback :
    ∀ (mc : MarkovChain) (len : Int) (g : Rand) (starter : GoStr),
      mc.transitions = [] → 0 < len →
      Generate mc len g starter = starter.take len.toNat ∧
      ((starter.length : Int) ≤ len → Generate mc len g starter = starter) := by
  intro mc len g starter ht h1
  have h0 : ¬ len ≤ 0 := by omega
  by_cases hgt : (starter.length : Int) > len
  · constructor
    · simp [Generate, generateCore, h0, ht, hgt]
    · intro hle
      omega
  · have hle : starter.length ≤ len.toNat := by omega
    constructor
    · simp [Generate, generateCore, h0, ht, hgt]
      exact hle
    · intro _
      simp [Generate, generateCore, h0, ht, hgt]

/-- Witness for C6. -/
theorem c6_empty_table_fallback_witness :
    Generate (NewMarkovChain 2) 5 randZero ['h', 'i']
      = (['h', 'i'] : GoStr).take (5 : Int).toNat :=
  (c6_empty_table_fallback (NewMarkovChain 2) 5 randZero ['h', 'i'] rfl (by decide)).1

/-- C7 (starter truncation law): for every table, order and random
source, and every positive requested length no greater than the starter's
length, `Generate` returns exactly the first `length` characters of the
starter. -/
theorem c7_starter_truncation :
    ∀ (mc : MarkovChain) (len : Int) (g : Rand) (starter : GoStr),
      0 < len → len ≤ (starter.length : Int) →
      Generate mc len g starter = starter.take len.toNat := by
  intro mc len g starter h1 h2
  have h0 : ¬ len ≤ 0 := by omega
  by_cases ht : mc.transitions = []
  · by_cases hgt : (starter.length : Int) > len
    · simp [Generate, generateCore, h0, ht, hgt]
    · have heq : starter.length ≤ len.toNat := by omega
      simp [Generate, generateCore, h0, ht, hgt]
      exact heq
  · have hge : (starter.length : Int) ≥ len := h2
    simp [Generate, generateCore, h0, ht, hge]

/-- Witness for C7. -/
theorem c7_starter_truncation_witness :
    Generate (NewMarkovChain 1) 2 randZero ['x', 'y', 'z']
      = (['x', 'y', 'z'] : GoStr).take (2 : Int).toNat :=
  c7_starter_truncation (NewMarkovChain 1) 2 randZero ['x', 'y', 'z']
    (by decide) (by decide)

/-- C8 (starter leads the output): for every table, order, random source
and requested length strictly greater than the starter's length, the output
of `Generate` begins with the starter verbatim. -/
theorem c8_starter_leads_output :
    ∀ (mc : MarkovChain) (len : Int) (g : Rand) (starter : GoStr),
      (starter.length : Int) < len →
      (Generate mc len g starter).take starter.length = starter := by
  intro mc len g starter hlt
  have h0 : ¬ len ≤ 0 := by omega
  by_cases ht : mc.transitions = []
  · have hgt : ¬ ((starter.length : Int) > len) := by omega
    simp [Generate, generateCore, h0, ht, hgt]
  · have hge : ¬ ((starter.length : Int) ≥ len) := by omega
    by_cases hord : mc.order ≤ starter.length
    · simp [Generate, generateCore, h0, ht, hge, hord]
    · simp [Generate, generateCore, h0, ht, hge, hord]

/-- Witness for C8. -/
theorem c8_starter_leads_output_witness :
    (Generate (AddText (NewMarkovChain 1) ['a', 'b', 'a']) 4 randZero ['a']).take
      (['a'] : GoStr).length = ['a'] :=
  c8_starter_leads_output (AddText (NewMarkovChain 1) ['a', 'b', 'a'])
    4 randZero ['a'] (by decide)

end SimpleMarkov

namespace SimpleMarkov

/-! Determinism of `Generate` and the map-enumeration caveat. -/

/-- Table `{"a": ['b'], "b": ['a']}` in one enumeration order of its keys. -/
def tableAB : Table := [(['a'], ['b']), (['b'], ['a'])]

/-- Table `{"a": ['b'], "b": ['a']}` — the same mapping as `tableAB` — in the
other enumeration order of its keys. -/
def tableBA : Table := [(['b'], ['a']), (['a'], ['b'])]

/-- C1, counterexample: `tableBA` is a permutation of `tableAB` — the same
entries, hence the same transition table as a mapping, merely enumerated in
a different order, which is exactly the freedom Go reserves for
`for ... range` over a map and re-draws at every loop, even for the same map
value within one process. Yet `Generate` at order 1, length 1, an identical
seeded random source and an identical (empty) starter returns `"b"` from one
enumeration and `"a"` from the other: the random-state selection
`states[rand.Intn(len(states))]` indexes into the enumeration of the keys,
so a fixed non-negative seed alone does not make two calls with identical
`(table, order, length, seed, starter)` byte-identical. -/
theorem c1_counterexample :
    List.Perm tableBA tableAB ∧
    Generate ⟨tableAB, 1⟩ 1 randZero [] ≠ Generate ⟨tableBA, 1⟩ 1 randZero [] :=
  ⟨List.Perm.swap _ _ _, by decide⟩

theorem genSteps_congr {t1 t2 : Table} (order : Nat)
    (hlk : ∀ s, lookup t1 s = lookup t2 s) :
    ∀ (n : Nat) (g : Rand) (st : GoStr),
      (genSteps t1 order g st n).2 = false →
      genSteps t1 order g st n = genSteps t2 order g st n := by
  intro n
  induction n with
  | zero => intro g st _; simp [genSteps]
  | succ n ih =>
    intro g st hflag
    by_cases h : lookup t1 st = []
    · by_cases hnr : lookup t1 ((keys t1)[(randIntn g (keys t1).length).1]?.getD []) = []
      · simp [genSteps, h, hnr] at hflag
      · simp [genSteps, h, hnr] at hflag
    · have h2 : lookup t2 st = lookup t1 st := (hlk st).symm
      have hrest := ih ((randIntn g (lookup t1 st).length).2)
        (stepState order st
          ((lookup t1 st).getD (randIntn g (lookup t1 st).length).1 (Char.ofNat 0)))
        (by simpa [genSteps, h] using hflag)
      simp only [genSteps, h2, if_neg h]
      rw [hrest]

/-- C1, amended (determinism relative to the key enumeration): whenever the
starter is at least `order` characters long — so the initial cursor comes
from the starter, not from a random key — and the walk never meets an empty
successor list — so it is never re-seeded from the enumerated keys — the
output of `Generate` depends only on the table as a mapping: any two
enumeration orders of the same entries, with the same seeded random source,
length and starter, give byte-identical output. (In full: with the key
enumeration also held fixed, `Generate` is a pure function of
`(table, order, length, seed, starter)`.) -/
theorem c1_amended_determinism :
    ∀ (t1 t2 : Table) (order : Nat) (len : Int) (g : Rand) (starter : GoStr),
      (∀ s, lookup t1 s = lookup t2 s) → (t1 = [] ↔ t2 = []) →
      order ≤ starter.length →
      generateMetEmpty ⟨t1, order⟩ len g starter = false →
      Generate ⟨t1, order⟩ len g starter = Generate ⟨t2, order⟩ len g starter := by
  intro t1 t2 order len g starter hlk hnil hord hflag
  by_cases h0 : len ≤ 0
  · simp [Generate, generateCore, h0]
  · by_cases ht : t1 = []
    · have ht2 : t2 = [] := hnil.mp ht
      simp [Generate, generateCore, h0, ht, ht2]
    · have ht2 : ¬ t2 = [] := fun h => ht (hnil.mpr h)
      by_cases hge : (starter.length : Int) ≥ len
      · simp [Generate, generateCore, h0, ht, ht2, hge]
      · have hf := hflag
        simp [generateMetEmpty, generateCore, h0, ht, hge, hord] at hf
        have hgen := genSteps_congr order hlk _ _ _ hf
        simp [Generate, generateCore, h0, ht, ht2, hge, hord]
        rw [hgen]

/-- Witness for the amended C1: the two enumerations of the table
`{"a": ['b'], "b": ['a']}`, with starter `"a"` (as long as the order) and
length 3, produce identical output. -/
theorem c1_amended_determinism_witness :
    Generate ⟨tableAB, 1⟩ 3 randZero ['a'] = Generate ⟨tableBA, 1⟩ 3 randZero ['a'] :=
  c1_amended_determinism tableAB tableBA 1 3 randZero ['a']
    (fun s => by
      by_cases h1 : (['a'] : GoStr) = s <;> by_cases h2 : (['b'] : GoStr) = s <;>
        simp_all [tableAB, tableBA, lookup])
    (by decide) (by decide) (by decide)

end SimpleMarkov
